import Mathlib

/-!
Shallow embedding of `generate_redirects.py` (jb1-redirect-generator).

Strings are modelled as `List Char`; Python's `str.lower` is modelled
per-character by `Char.toLower` (faithful on ASCII, which is all the
script's slug rules distinguish), `str.replace` by `pyReplace`
(left-to-right literal substring substitution), the regex
`re.sub(r'-+', '-', s)` by `collapseHyphens`, the regex
`re.sub(r'^[\d-]+', '', s)` by `dropWhile isDigitOrHyphen`
(digits modelled as ASCII `0`-`9`), `str.split('/')` by `splitOnSlash`,
`'/'.join` by `joinSlash`, and `str.strip('-')` by `stripHyphens`.
-/

/-- Character class of the regex `[\d-]` used in
`re.sub(r'^[\d-]+', '', s)`: a decimal digit or a hyphen. -/
def isDigitOrHyphen (c : Char) : Bool :=
  c == '-' || (48 ≤ c.toNat && c.toNat ≤ 57)

/-- Structural-recursion worker for `pyReplace`: the fuel bounds the number
of scan steps.  Whenever `s.length ≤ fuel` it computes Python's
`s.replace(pat, rep)` (each recursive call consumes at least one character
of `s`, so the fuel never runs out before the scan ends). -/
def pyReplaceFuel : Nat → List Char → List Char → List Char → List Char
  | _, s, [], rep => rep ++ s.flatMap (fun c => c :: rep)
  | 0, s, _ :: _, _ => s
  | fuel + 1, s, p :: ps, rep =>
    match s with
    | [] => []
    | c :: rest =>
      if (p :: ps).isPrefixOf (c :: rest) then
        rep ++ pyReplaceFuel fuel ((c :: rest).drop (p :: ps).length) (p :: ps) rep
      else
        c :: pyReplaceFuel fuel rest (p :: ps) rep

/-- Python `s.replace(pat, rep)` on `List Char`: scan left to right, replace
each (non-overlapping) occurrence of `pat` by `rep`.  For the empty pattern
Python inserts `rep` before every character and at the end. -/
def pyReplace (s : List Char) (pat rep : List Char) : List Char :=
  pyReplaceFuel s.length s pat rep

/-- Model of `re.sub(r'-+', '-', slug)`: collapse every run of two or more
consecutive hyphens into a single hyphen. -/
def collapseHyphens : List Char → List Char
  | [] => []
  | [c] => [c]
  | c :: d :: rest =>
    if c = '-' ∧ d = '-' then collapseHyphens (d :: rest)
    else c :: collapseHyphens (d :: rest)

/-- Model of Python `slug.split('/')`: splitting on `'/'` always yields at
least one (possibly empty) component; `"".split('/') == [""]`. -/
def splitOnSlash : List Char → List (List Char)
  | [] => [[]]
  | c :: rest =>
    if c = '/' then [] :: splitOnSlash rest
    else
      match splitOnSlash rest with
      | [] => [[c]]
      | p :: ps => (c :: p) :: ps

/-- Model of Python `'/'.join(parts)`. -/
def joinSlash : List (List Char) → List Char
  | [] => []
  | [p] => p
  | p :: q :: ps => p ++ '/' :: joinSlash (q :: ps)

/-- Model of Python `part.strip('-')`: remove every leading and trailing
hyphen of the component. -/
def stripHyphens (p : List Char) : List Char :=
  ((p.dropWhile (· = '-')).reverse.dropWhile (· = '-')).reverse

/-- Model of `re.sub(r'^[\d-]+', '', s)`: delete the maximal leading run of
digits and hyphens of a component. -/
def dropLeadingDigitsHyphens (p : List Char) : List Char :=
  p.dropWhile isDigitOrHyphen

/-- Embedding of `sanitize_for_myst_url` (generate_redirects.py, lines
46-95), step for step: lowercase; `.replace(' ', '-').replace('_', '-')`;
collapse hyphen runs; per `/`-component strip the leading `[\d-]+` run
(splitting, mapping, re-joining); then split again, `strip('-')` each
component, and re-join. -/
def sanitize_for_myst_url (path : List Char) : List Char :=
  joinSlash
    ((splitOnSlash
        (joinSlash
          ((splitOnSlash
              (collapseHyphens
                (pyReplace (pyReplace (path.map Char.toLower) [' '] ['-']) ['_'] ['-']))).map
            dropLeadingDigitsHyphens))).map
      stripHyphens)

/-- String-level wrapper of `sanitize_for_myst_url`. -/
def sanitizeStr (path : String) : String :=
  (sanitize_for_myst_url path.toList).asString

/-- The six-step reference algorithm exactly as the spec words it
(§4.2): (1) lowercase; (2) replace each space and underscore with a
hyphen; (3) collapse runs of two or more hyphens to one; (4) per
`/`-component strip any leading run of digits and/or hyphens; (5) per
component strip leading and trailing hyphens; (6) rejoin with `/`.
Steps 4 and 5 are performed per component in a single split, following
the spec's wording. -/
def sanitizeSpecSteps (path : List Char) : List Char :=
  joinSlash
    ((splitOnSlash
        (collapseHyphens
          ((path.map Char.toLower).map
            (fun c => if c = ' ' ∨ c = '_' then '-' else c)))).map
      (fun p => stripHyphens (dropLeadingDigitsHyphens p)))

/-! ### Character-level facts about `Char.toLower` -/

/-- `Char.ofNat` of a scalar value below the surrogate range decodes to
itself. -/
theorem toNat_ofNat_valid {n : Nat} (h : n < 55296) : (Char.ofNat n).toNat = n := by
  unfold Char.ofNat
  rw [dif_pos (Or.inl h)]
  rfl

/-- `Char.toLower` fixes every character outside the ASCII uppercase
range. -/
theorem toLower_eq_of_not_upper {c : Char} (h : ¬(65 ≤ c.toNat ∧ c.toNat ≤ 90)) :
    c.toLower = c := by
  unfold Char.toLower
  rw [if_neg]
  omega

/-- The result of `Char.toLower` is never an ASCII uppercase letter. -/
theorem toNat_toLower_not_upper (c : Char) :
    ¬(65 ≤ c.toLower.toNat ∧ c.toLower.toNat ≤ 90) := by
  unfold Char.toLower
  by_cases h : c.toNat ≥ 65 ∧ c.toNat ≤ 90
  · rw [if_pos h]
    rw [toNat_ofNat_valid (by omega)]
    omega
  · rw [if_neg h]
    omega

/-- `Char.toLower` is idempotent. -/
theorem toLower_toLower (c : Char) : c.toLower.toLower = c.toLower :=
  toLower_eq_of_not_upper (toNat_toLower_not_upper c)

/-! ### Generic list helpers -/

/-- A map whose function fixes every element of the list is the identity. -/
theorem map_eq_self_of {α : Type} {f : α → α} {l : List α}
    (h : ∀ a ∈ l, f a = a) : l.map f = l := by
  rw [List.map_congr_left h]
  exact List.map_id l

/-- Elements survive `dropWhile`. -/
theorem mem_of_mem_dropWhile {q : Char → Bool} {l : List Char} {c : Char}
    (h : c ∈ l.dropWhile q) : c ∈ l :=
  List.Sublist.mem h (List.dropWhile_suffix q).sublist

/-- The head of a `dropWhile` result does not satisfy the predicate. -/
theorem head?_dropWhile_false (q : Char → Bool) :
    ∀ (l : List Char) {c : Char}, (l.dropWhile q).head? = some c → q c = false := by
  intro l
  induction l with
  | nil => intro c h; simp at h
  | cons d t ih =>
    intro c h
    rw [List.dropWhile_cons] at h
    by_cases hd : q d = true
    · rw [if_pos hd] at h
      exact ih h
    · rw [if_neg hd] at h
      simp only [List.head?_cons, Option.some.injEq] at h
      subst h
      simpa using hd

/-- `dropWhile` is the identity when the head does not satisfy the
predicate. -/
theorem dropWhile_eq_self_of (q : Char → Bool) (l : List Char)
    (h : ∀ c, l.head? = some c → q c = false) : l.dropWhile q = l := by
  cases l with
  | nil => rfl
  | cons d t =>
    rw [List.dropWhile_cons, if_neg]
    simp [h d rfl]

/-- `pyReplace` with a one-character pattern and a one-character
replacement is a per-character map, just like Python's
`s.replace(a, b)` on single characters. -/
theorem pyReplace_singleton (a b : Char) (s : List Char) :
    pyReplace s [a] [b] = s.map (fun c => if c = a then b else c) := by
  induction s with
  | nil => rfl
  | cons c rest ih =>
    unfold pyReplace at ih ⊢
    simp only [List.length_cons]
    unfold pyReplaceFuel
    simp only [List.isPrefixOf, List.isPrefixOf_nil_left, Bool.and_true,
      List.length_cons, List.length_nil, List.drop_succ_cons, List.drop_zero,
      List.map_cons]
    by_cases h : c = a
    · subst h
      simp [ih]
    · rw [if_neg (by simpa using Ne.symm h), if_neg h, ih]

/-! ### The no-double-hyphen invariant -/

/-- No two consecutive hyphens occur in the list. -/
def noDoubleHyphen : List Char → Bool
  | [] => true
  | [_] => true
  | c :: d :: rest => !(c == '-' && d == '-') && noDoubleHyphen (d :: rest)

/-- The invariant is inherited by the tail. -/
theorem noDoubleHyphen_tail {c : Char} {t : List Char}
    (h : noDoubleHyphen (c :: t) = true) : noDoubleHyphen t = true := by
  cases t with
  | nil => rfl
  | cons d r =>
    simp only [noDoubleHyphen, Bool.and_eq_true] at h
    exact h.2

/-- Extend the invariant by one character that does not create a hyphen
pair with the head. -/
theorem noDoubleHyphen_cons {c : Char} {t : List Char}
    (ht : noDoubleHyphen t = true)
    (h : ¬(c = '-' ∧ t.head? = some '-')) : noDoubleHyphen (c :: t) = true := by
  cases t with
  | nil => rfl
  | cons d r =>
    simp only [List.head?_cons] at h
    simp only [noDoubleHyphen, Bool.and_eq_true]
    refine ⟨?_, ht⟩
    by_cases hc : c = '-'
    · by_cases hd : d = '-'
      · exact absurd ⟨hc, by rw [hd]⟩ h
      · simp [hd]
    · simp [hc]

/-- The invariant restricts to the left part of an append. -/
theorem noDoubleHyphen_append_left : ∀ (xs ys : List Char),
    noDoubleHyphen (xs ++ ys) = true → noDoubleHyphen xs = true
  | [], _, _ => rfl
  | [_], _, _ => rfl
  | x1 :: x2 :: xs', ys, h => by
    simp only [List.cons_append] at h
    simp only [noDoubleHyphen, Bool.and_eq_true] at h ⊢
    refine ⟨h.1, ?_⟩
    exact noDoubleHyphen_append_left (x2 :: xs') ys (by simpa using h.2)

/-- The invariant restricts to the right part of an append. -/
theorem noDoubleHyphen_append_right : ∀ (xs ys : List Char),
    noDoubleHyphen (xs ++ ys) = true → noDoubleHyphen ys = true
  | [], _, h => h
  | _ :: xs', ys, h =>
    noDoubleHyphen_append_right xs' ys (noDoubleHyphen_tail (by simpa using h))

/-- The invariant restricts to contiguous sublists. -/
theorem noDoubleHyphen_of_sub {p l : List Char} (hsub : p <:+: l)
    (hl : noDoubleHyphen l = true) : noDoubleHyphen p = true := by
  obtain ⟨s, t, rfl⟩ := hsub
  exact noDoubleHyphen_append_left p t
    (noDoubleHyphen_append_right s (p ++ t) (by simpa [List.append_assoc] using hl))

/-- Glue two invariant-satisfying lists whose junction is not a hyphen
pair. -/
theorem noDoubleHyphen_append_of : ∀ (xs ys : List Char),
    noDoubleHyphen xs = true → noDoubleHyphen ys = true →
    ¬(xs.getLast? = some '-' ∧ ys.head? = some '-') →
    noDoubleHyphen (xs ++ ys) = true
  | [], ys, _, h2, _ => h2
  | [x], ys, _, h2, hmid => by
    refine noDoubleHyphen_cons h2 ?_
    intro hx
    exact hmid ⟨by simp [hx.1], hx.2⟩
  | x1 :: x2 :: xs', ys, h1, h2, hmid => by
    have hrec := noDoubleHyphen_append_of (x2 :: xs') ys (noDoubleHyphen_tail h1) h2
      (by rwa [List.getLast?_cons_cons] at hmid)
    simp only [List.cons_append] at hrec ⊢
    refine noDoubleHyphen_cons hrec ?_
    rintro ⟨hx1, hh⟩
    simp only [List.cons_append, List.head?_cons, Option.some.injEq] at hh
    simp only [noDoubleHyphen, Bool.and_eq_true] at h1
    have := h1.1
    rw [hx1, hh] at this
    simp at this

/-! ### Facts about `collapseHyphens` -/

/-- Collapsing hyphen runs only deletes characters. -/
theorem collapseHyphens_sublist : ∀ l : List Char, (collapseHyphens l).Sublist l
  | [] => List.Sublist.refl _
  | [c] => List.Sublist.refl _
  | c :: d :: rest => by
    simp only [collapseHyphens]
    by_cases h : c = '-' ∧ d = '-'
    · rw [if_pos h]
      exact (collapseHyphens_sublist (d :: rest)).cons c
    · rw [if_neg h]
      exact (collapseHyphens_sublist (d :: rest)).cons₂ c

/-- Collapsing hyphen runs never changes the first character. -/
theorem collapseHyphens_head? : ∀ l : List Char, (collapseHyphens l).head? = l.head?
  | [] => rfl
  | [_] => rfl
  | c :: d :: rest => by
    simp only [collapseHyphens]
    by_cases h : c = '-' ∧ d = '-'
    · rw [if_pos h, collapseHyphens_head? (d :: rest)]
      simp [h.1, h.2]
    · rw [if_neg h]
      rfl

/-- The output of `collapseHyphens` has no two consecutive hyphens. -/
theorem noDoubleHyphen_collapseHyphens : ∀ l : List Char,
    noDoubleHyphen (collapseHyphens l) = true
  | [] => rfl
  | [_] => rfl
  | c :: d :: rest => by
    simp only [collapseHyphens]
    by_cases h : c = '-' ∧ d = '-'
    · rw [if_pos h]
      exact noDoubleHyphen_collapseHyphens (d :: rest)
    · rw [if_neg h]
      refine noDoubleHyphen_cons (noDoubleHyphen_collapseHyphens (d :: rest)) ?_
      rw [collapseHyphens_head?]
      simp only [List.head?_cons, Option.some.injEq]
      exact h

/-- `collapseHyphens` is the identity on lists already satisfying the
invariant. -/
theorem collapseHyphens_eq_self : ∀ l : List Char,
    noDoubleHyphen l = true → collapseHyphens l = l
  | [], _ => rfl
  | [_], _ => rfl
  | c :: d :: rest, h => by
    simp only [noDoubleHyphen, Bool.and_eq_true] at h
    simp only [collapseHyphens]
    have h1 : ¬(c = '-' ∧ d = '-') := by
      intro hc
      have h2 := h.1
      rw [hc.1, hc.2] at h2
      simp at h2
    rw [if_neg h1, collapseHyphens_eq_self (d :: rest) h.2]

/-- Collapsing hyphen runs preserves the number of slashes. -/
theorem count_slash_collapseHyphens : ∀ l : List Char,
    (collapseHyphens l).count '/' = l.count '/'
  | [] => rfl
  | [_] => rfl
  | c :: d :: rest => by
    simp only [collapseHyphens]
    by_cases h : c = '-' ∧ d = '-'
    · rw [if_pos h, count_slash_collapseHyphens (d :: rest), List.count_cons '/' c]
      rw [h.1]
      simp
    · rw [if_neg h]
      rw [List.count_cons, List.count_cons, count_slash_collapseHyphens (d :: rest)]

/-! ### Facts about `splitOnSlash` and `joinSlash` -/

/-- Splitting never yields an empty list of components. -/
theorem splitOnSlash_ne_nil : ∀ l : List Char, splitOnSlash l ≠ []
  | [] => by simp [splitOnSlash]
  | c :: rest => by
    simp only [splitOnSlash]
    by_cases h : c = '/'
    · rw [if_pos h]
      simp
    · rw [if_neg h]
      cases hs : splitOnSlash rest with
      | nil => simp
      | cons p ps => simp

/-- Unfolding of `splitOnSlash` at a leading slash. -/
theorem splitOnSlash_cons_slash (rest : List Char) :
    splitOnSlash ('/' :: rest) = [] :: splitOnSlash rest := by
  simp [splitOnSlash]

/-- Unfolding of `splitOnSlash` at a leading non-slash character. -/
theorem splitOnSlash_cons_ne (c : Char) (rest : List Char) (h : ¬ c = '/') :
    ∃ p ps, splitOnSlash rest = p :: ps ∧ splitOnSlash (c :: rest) = (c :: p) :: ps := by
  cases hs : splitOnSlash rest with
  | nil => exact absurd hs (splitOnSlash_ne_nil rest)
  | cons p ps =>
    refine ⟨p, ps, rfl, ?_⟩
    simp only [splitOnSlash, if_neg h, hs]

/-- A slash-free list splits into the single component it is. -/
theorem splitOnSlash_no_slash : ∀ l : List Char, '/' ∉ l → splitOnSlash l = [l]
  | [], _ => rfl
  | c :: rest, h => by
    have hc : ¬ c = '/' := by
      intro e
      exact h (by rw [e]; exact List.mem_cons_self '/' rest)
    obtain ⟨p, ps, h1, h2⟩ := splitOnSlash_cons_ne c rest hc
    rw [splitOnSlash_no_slash rest (fun hm => h (List.mem_cons_of_mem c hm))] at h1
    injection h1 with e1 e2
    rw [h2, e1, e2]

/-- Splitting a list that starts with a slash-free block followed by a
slash peels off that block as the first component. -/
theorem splitOnSlash_append_slash : ∀ (p t : List Char), '/' ∉ p →
    splitOnSlash (p ++ '/' :: t) = p :: splitOnSlash t
  | [], t, _ => by simp [splitOnSlash_cons_slash]
  | c :: p', t, h => by
    have hc : ¬ c = '/' := by
      intro e
      exact h (by rw [e]; exact List.mem_cons_self '/' p')
    obtain ⟨q, qs, h1, h2⟩ := splitOnSlash_cons_ne c (p' ++ '/' :: t) hc
    rw [splitOnSlash_append_slash p' t (fun hm => h (List.mem_cons_of_mem c hm))] at h1
    injection h1 with e1 e2
    simp only [List.cons_append]
    rw [h2, e1, e2]

/-- `splitOnSlash` is a left inverse of `joinSlash` on nonempty lists of
slash-free components. -/
theorem splitOnSlash_joinSlash : ∀ ps : List (List Char), ps ≠ [] →
    (∀ p ∈ ps, '/' ∉ p) → splitOnSlash (joinSlash ps) = ps
  | [], h, _ => absurd rfl h
  | [p], _, hp => by
    simp only [joinSlash]
    exact splitOnSlash_no_slash p (hp p (by simp))
  | p :: q :: ps, _, hp => by
    simp only [joinSlash]
    rw [splitOnSlash_append_slash p (joinSlash (q :: ps)) (hp p (by simp))]
    rw [splitOnSlash_joinSlash (q :: ps) (by simp)
      (fun r hr => hp r (List.mem_cons_of_mem p hr))]

/-- The first component produced by `splitOnSlash` is a prefix of the
input. -/
theorem splitOnSlash_head_pre : ∀ l : List Char,
    ∃ p ps, splitOnSlash l = p :: ps ∧ p <+: l
  | [] => ⟨[], [], rfl, List.nil_prefix⟩
  | c :: rest => by
    by_cases h : c = '/'
    · subst h
      exact ⟨[], splitOnSlash rest, splitOnSlash_cons_slash rest, List.nil_prefix⟩
    · obtain ⟨p, ps, h1, h2⟩ := splitOnSlash_cons_ne c rest h
      obtain ⟨p', ps', h1', hpre⟩ := splitOnSlash_head_pre rest
      rw [h1'] at h1
      injection h1 with e1 e2
      subst e1
      subst e2
      refine ⟨c :: p', ps', h2, ?_⟩
      obtain ⟨t, ht⟩ := hpre
      exact ⟨t, by rw [List.cons_append, ht]⟩

/-- Every component produced by `splitOnSlash` is a contiguous sublist of
the input. -/
theorem sub_of_mem_splitOnSlash : ∀ (l : List Char) (p : List Char),
    p ∈ splitOnSlash l → p <:+: l
  | [], p, hp => by
    simp only [splitOnSlash, List.mem_singleton] at hp
    subst hp
    exact List.infix_refl []
  | c :: rest, p, hp => by
    by_cases h : c = '/'
    · subst h
      rw [splitOnSlash_cons_slash] at hp
      rcases List.mem_cons.mp hp with h1 | h1
      · subst h1
        exact ⟨[], '/' :: rest, rfl⟩
      · exact (sub_of_mem_splitOnSlash rest p h1).trans ⟨['/'], [], by simp⟩
    · obtain ⟨q, qs, h1, h2⟩ := splitOnSlash_cons_ne c rest h
      rw [h2] at hp
      rcases List.mem_cons.mp hp with h3 | h3
      · obtain ⟨p', ps', h1', hpre⟩ := splitOnSlash_head_pre rest
        rw [h1'] at h1
        injection h1 with e1 e2
        subst e1
        subst h3
        obtain ⟨t, ht⟩ := hpre
        exact ⟨[], t, by simp [ht]⟩
      · have hq : p ∈ splitOnSlash rest := by
          rw [h1]
          exact List.mem_cons_of_mem q h3
        exact (sub_of_mem_splitOnSlash rest p hq).trans ⟨[c], [], by simp⟩

/-- Components produced by `splitOnSlash` contain no slash. -/
theorem no_slash_of_mem_splitOnSlash : ∀ (l : List Char) (p : List Char),
    p ∈ splitOnSlash l → '/' ∉ p
  | [], p, hp => by
    simp only [splitOnSlash, List.mem_singleton] at hp
    subst hp
    simp
  | c :: rest, p, hp => by
    by_cases h : c = '/'
    · subst h
      rw [splitOnSlash_cons_slash] at hp
      rcases List.mem_cons.mp hp with h1 | h1
      · subst h1; simp
      · exact no_slash_of_mem_splitOnSlash rest p h1
    · obtain ⟨q, qs, h1, h2⟩ := splitOnSlash_cons_ne c rest h
      rw [h2] at hp
      rcases List.mem_cons.mp hp with h3 | h3
      · subst h3
        intro hm
        rcases List.mem_cons.mp hm with h4 | h4
        · exact h h4.symm
        · exact no_slash_of_mem_splitOnSlash rest q
            (by rw [h1]; exact List.mem_cons_self q qs) h4
      · exact no_slash_of_mem_splitOnSlash rest p
          (by rw [h1]; exact List.mem_cons_of_mem q h3)

/-- The number of components is one more than the number of slashes. -/
theorem splitOnSlash_length : ∀ l : List Char,
    (splitOnSlash l).length = l.count '/' + 1
  | [] => rfl
  | c :: rest => by
    by_cases h : c = '/'
    · subst h
      rw [splitOnSlash_cons_slash]
      simp only [List.length_cons, splitOnSlash_length rest, List.count_cons]
      simp
    · obtain ⟨p, ps, h1, h2⟩ := splitOnSlash_cons_ne c rest h
      rw [h2]
      have hl := splitOnSlash_length rest
      rw [h1] at hl
      simp only [List.length_cons] at hl ⊢
      rw [List.count_cons '/' c]
      simp only [beq_iff_eq, if_neg h]
      omega

/-- Character membership in a `joinSlash`. -/
theorem mem_joinSlash : ∀ (ps : List (List Char)) (c : Char),
    c ∈ joinSlash ps → c = '/' ∨ ∃ p ∈ ps, c ∈ p
  | [], c, h => by simp [joinSlash] at h
  | [p], c, h => Or.inr ⟨p, by simp, by simpa [joinSlash] using h⟩
  | p :: q :: ps, c, h => by
    simp only [joinSlash] at h
    rcases List.mem_append.mp h with h1 | h1
    · exact Or.inr ⟨p, by simp, h1⟩
    · rcases List.mem_cons.mp h1 with h2 | h2
      · exact Or.inl h2
      · rcases mem_joinSlash (q :: ps) c h2 with h3 | ⟨r, hr, hcr⟩
        · exact Or.inl h3
        · exact Or.inr ⟨r, List.mem_cons_of_mem p hr, hcr⟩

/-- Joining slash-free components creates exactly one slash per boundary. -/
theorem count_slash_joinSlash : ∀ ps : List (List Char), ps ≠ [] →
    (∀ p ∈ ps, '/' ∉ p) → (joinSlash ps).count '/' + 1 = ps.length
  | [], h, _ => absurd rfl h
  | [p], _, hp => by
    simp only [joinSlash, List.length_cons, List.length_nil]
    rw [List.count_eq_zero.mpr (hp p (by simp))]
  | p :: q :: ps, _, hp => by
    simp only [joinSlash] at *
    rw [List.count_append, List.count_cons '/' '/']
    rw [List.count_eq_zero.mpr (hp p (by simp))]
    have hrec := count_slash_joinSlash (q :: ps) (by simp)
      (fun r hr => hp r (List.mem_cons_of_mem p hr))
    simp only [joinSlash] at hrec
    simp only [List.length_cons] at hrec ⊢
    simp only [beq_self_eq_true, if_pos]
    omega

/-! ### Facts about `stripHyphens` and the per-component normalisation -/

/-- `stripHyphens p` is a prefix of the front-trimmed list: the back trim
only removes a suffix. -/
theorem stripHyphens_pre_dropWhile (p : List Char) :
    ∃ v, stripHyphens p ++ v = p.dropWhile (· = '-') := by
  obtain ⟨v, hv⟩ :=
    (List.dropWhile_suffix (l := (p.dropWhile (· = '-')).reverse) (· = '-'))
  exact ⟨v.reverse, by simpa [stripHyphens, List.reverse_append] using congrArg List.reverse hv⟩

/-- `stripHyphens p` is a contiguous sublist of `p`. -/
theorem stripHyphens_sub (p : List Char) : stripHyphens p <:+: p := by
  obtain ⟨u, hu⟩ := (List.dropWhile_suffix (l := p) (· = '-'))
  obtain ⟨v, hv⟩ := stripHyphens_pre_dropWhile p
  exact ⟨u, v, by rw [List.append_assoc, hv, hu]⟩

/-- The last character of a stripped component is not a hyphen. -/
theorem getLast?_stripHyphens {p : List Char} {c : Char}
    (hc : (stripHyphens p).getLast? = some c) : ¬ c = '-' := by
  unfold stripHyphens at hc
  rw [List.getLast?_reverse] at hc
  have h2 := head?_dropWhile_false _ _ hc
  simpa using h2

/-- If the front-trim is trivial, the head of a stripped component agrees
with the head of the input. -/
theorem head?_stripHyphens_eq {p : List Char} {c : Char}
    (hdw : p.dropWhile (· = '-') = p)
    (hc : (stripHyphens p).head? = some c) : p.head? = some c := by
  obtain ⟨v, hv⟩ := stripHyphens_pre_dropWhile p
  rw [hdw] at hv
  cases hs : stripHyphens p with
  | nil => rw [hs] at hc; simp at hc
  | cons d t =>
    rw [hs] at hc hv
    simp only [List.head?_cons, Option.some.injEq] at hc
    subst hc
    rw [← hv]
    simp

/-- `stripHyphens` is the identity when neither end is a hyphen. -/
theorem stripHyphens_eq_self {p : List Char}
    (h1 : ∀ c, p.head? = some c → ¬ c = '-')
    (h2 : ∀ c, p.getLast? = some c → ¬ c = '-') : stripHyphens p = p := by
  unfold stripHyphens
  rw [dropWhile_eq_self_of _ p (fun c hc => by simpa using h1 c hc)]
  rw [dropWhile_eq_self_of _ p.reverse
    (fun c hc => by simpa using h2 c (by rwa [List.head?_reverse] at hc))]
  exact List.reverse_reverse p

/-- After stripping the leading digit/hyphen run, the head is not a
digit or hyphen, so in particular not a hyphen. -/
theorem dropLeading_head_false {p : List Char} {c : Char}
    (hc : (dropLeadingDigitsHyphens p).head? = some c) : isDigitOrHyphen c = false :=
  head?_dropWhile_false isDigitOrHyphen p hc

/-- The front-trim of `stripHyphens` does nothing after
`dropLeadingDigitsHyphens`. -/
theorem dropWhile_hyphen_dropLeading (p : List Char) :
    (dropLeadingDigitsHyphens p).dropWhile (· = '-') = dropLeadingDigitsHyphens p := by
  apply dropWhile_eq_self_of
  intro c hc
  have h := dropLeading_head_false hc
  simp only [isDigitOrHyphen, Bool.or_eq_false_iff] at h
  simpa using h.1

/-- Head characterisation of a fully normalised component: it is not a
digit or hyphen. -/
theorem head?_normComp {p : List Char} {c : Char}
    (hc : (stripHyphens (dropLeadingDigitsHyphens p)).head? = some c) :
    isDigitOrHyphen c = false := by
  have h := head?_stripHyphens_eq (dropWhile_hyphen_dropLeading p) hc
  exact dropLeading_head_false h

/-- A fully normalised component is unchanged by a second normalisation
round. -/
theorem normComp_idem (p : List Char) :
    stripHyphens (dropLeadingDigitsHyphens
      (stripHyphens (dropLeadingDigitsHyphens p))) =
    stripHyphens (dropLeadingDigitsHyphens p) := by
  have hq1 : dropLeadingDigitsHyphens (stripHyphens (dropLeadingDigitsHyphens p)) =
      stripHyphens (dropLeadingDigitsHyphens p) :=
    dropWhile_eq_self_of _ _ (fun c hc => head?_normComp hc)
  rw [hq1]
  refine stripHyphens_eq_self (fun c hc => ?_) (fun c hc => getLast?_stripHyphens hc)
  have h := head?_normComp hc
  simp only [isDigitOrHyphen, Bool.or_eq_false_iff] at h
  simpa using h.1

/-- A suffix is in particular a contiguous sublist. -/
theorem sub_of_suffix {l1 l2 : List Char} (h : l1 <:+ l2) : l1 <:+: l2 := by
  obtain ⟨t, ht⟩ := h
  exact ⟨t, [], by simp [ht]⟩

/-- Elements survive `stripHyphens`. -/
theorem mem_of_mem_stripHyphens {p : List Char} {c : Char}
    (h : c ∈ stripHyphens p) : c ∈ p :=
  List.Sublist.mem h (stripHyphens_sub p).sublist

/-- The components cut out by step 4 of the sanitizer contain no slash. -/
theorem map_dropLeading_no_slash (l : List Char) :
    ∀ p ∈ (splitOnSlash l).map dropLeadingDigitsHyphens, '/' ∉ p := by
  intro p hp
  obtain ⟨q, hq, rfl⟩ := List.mem_map.mp hp
  intro hm
  exact no_slash_of_mem_splitOnSlash l q hq (mem_of_mem_dropWhile hm)

/-- The fully normalised components contain no slash. -/
theorem map_normComp_no_slash (l : List Char) :
    ∀ p ∈ (splitOnSlash l).map (fun p => stripHyphens (dropLeadingDigitsHyphens p)),
      '/' ∉ p := by
  intro p hp
  obtain ⟨q, hq, rfl⟩ := List.mem_map.mp hp
  intro hm
  exact no_slash_of_mem_splitOnSlash l q hq
    (mem_of_mem_dropWhile (mem_of_mem_stripHyphens hm))

/-! ### The sanitizer equals the spec's six-step reference algorithm -/

/-- The code's pipeline (which splits, joins, and re-splits between steps 4
and 5) computes the same function as the spec's single-split six-step
algorithm. -/
theorem sanitize_eq_steps (s : List Char) :
    sanitize_for_myst_url s = sanitizeSpecSteps s := by
  unfold sanitize_for_myst_url sanitizeSpecSteps
  rw [pyReplace_singleton, pyReplace_singleton, List.map_map]
  have hfun : ((fun c => if c = '_' then '-' else c) ∘ (fun c => if c = ' ' then '-' else c))
      = (fun c => if c = ' ' ∨ c = '_' then '-' else c) := by
    funext c
    simp only [Function.comp_apply]
    by_cases h1 : c = ' '
    · simp [h1]
    · by_cases h2 : c = '_'
      · simp [h1, h2]
      · simp [h1, h2]
  rw [hfun]
  rw [splitOnSlash_joinSlash _
    (fun h => splitOnSlash_ne_nil _ (List.map_eq_nil_iff.mp h))
    (map_dropLeading_no_slash _)]
  rw [List.map_map]
  rfl

/-- Splitting the sanitised output recovers exactly the list of
normalised components. -/
theorem splitOnSlash_sanitizeSteps (s : List Char) :
    splitOnSlash (sanitizeSpecSteps s) =
      (splitOnSlash (collapseHyphens
        ((s.map Char.toLower).map (fun c => if c = ' ' ∨ c = '_' then '-' else c)))).map
        (fun p => stripHyphens (dropLeadingDigitsHyphens p)) := by
  unfold sanitizeSpecSteps
  exact splitOnSlash_joinSlash _
    (fun h => splitOnSlash_ne_nil _ (List.map_eq_nil_iff.mp h))
    (map_normComp_no_slash _)

/-- Every character of the sanitised output is fixed by lowercasing and is
neither a space nor an underscore. -/
theorem sanitize_chars (s : List Char) :
    ∀ c ∈ sanitizeSpecSteps s, c.toLower = c ∧ ¬ c = ' ' ∧ ¬ c = '_' := by
  intro c hc
  unfold sanitizeSpecSteps at hc
  rcases mem_joinSlash _ c hc with hslash | ⟨p, hp, hcp⟩
  · subst hslash
    exact ⟨by decide, by decide, by decide⟩
  · obtain ⟨q, hq, rfl⟩ := List.mem_map.mp hp
    have hcq : c ∈ q := mem_of_mem_dropWhile (mem_of_mem_stripHyphens hcp)
    have hcmid := List.Sublist.mem hcq (sub_of_mem_splitOnSlash _ q hq).sublist
    have hcmap := List.Sublist.mem hcmid (collapseHyphens_sublist _)
    rw [List.map_map] at hcmap
    obtain ⟨a, _, rfl⟩ := List.mem_map.mp hcmap
    simp only [Function.comp_apply]
    by_cases h : a.toLower = ' ' ∨ a.toLower = '_'
    · rw [if_pos h]
      exact ⟨by decide, by decide, by decide⟩
    · rw [if_neg h]
      push_neg at h
      exact ⟨toLower_toLower a, h.1, h.2⟩

/-- Joining components that individually satisfy the no-double-hyphen
invariant yields a string satisfying it: the `/` separators cannot form a
hyphen pair. -/
theorem noDoubleHyphen_joinSlash : ∀ ps : List (List Char),
    (∀ p ∈ ps, noDoubleHyphen p = true) → noDoubleHyphen (joinSlash ps) = true
  | [], _ => rfl
  | [p], hp => hp p (by simp)
  | p :: q :: ps, hp => by
    simp only [joinSlash]
    apply noDoubleHyphen_append_of p ('/' :: joinSlash (q :: ps)) (hp p (by simp))
    · refine noDoubleHyphen_cons
        (noDoubleHyphen_joinSlash (q :: ps) (fun r hr => hp r (List.mem_cons_of_mem p hr))) ?_
      rintro ⟨h1, -⟩
      exact absurd h1 (by decide)
    · rintro ⟨-, h2⟩
      simp only [List.head?_cons, Option.some.injEq] at h2
      exact absurd h2 (by decide)

/-- The sanitised output never contains two consecutive hyphens. -/
theorem noDoubleHyphen_sanitizeSteps (s : List Char) :
    noDoubleHyphen (sanitizeSpecSteps s) = true := by
  unfold sanitizeSpecSteps
  apply noDoubleHyphen_joinSlash
  intro p hp
  obtain ⟨q, hq, rfl⟩ := List.mem_map.mp hp
  have h1 : noDoubleHyphen q = true :=
    noDoubleHyphen_of_sub (sub_of_mem_splitOnSlash _ q hq)
      (noDoubleHyphen_collapseHyphens _)
  exact noDoubleHyphen_of_sub
    ((stripHyphens_sub _).trans (sub_of_suffix (List.dropWhile_suffix isDigitOrHyphen))) h1

/-- The six-step algorithm is idempotent: its output is a fixed point of
every one of its steps. -/
theorem sanitizeSteps_idem (s : List Char) :
    sanitizeSpecSteps (sanitizeSpecSteps s) = sanitizeSpecSteps s := by
  have h1 : (sanitizeSpecSteps s).map Char.toLower = sanitizeSpecSteps s :=
    map_eq_self_of (fun c hc => (sanitize_chars s c hc).1)
  have h2 : (sanitizeSpecSteps s).map (fun c => if c = ' ' ∨ c = '_' then '-' else c)
      = sanitizeSpecSteps s := by
    apply map_eq_self_of
    intro c hc
    obtain ⟨-, hsp, hun⟩ := sanitize_chars s c hc
    rw [if_neg]
    rintro (h | h)
    · exact hsp h
    · exact hun h
  have h3 : collapseHyphens (sanitizeSpecSteps s) = sanitizeSpecSteps s :=
    collapseHyphens_eq_self _ (noDoubleHyphen_sanitizeSteps s)
  have h5 : ((splitOnSlash (collapseHyphens
        ((s.map Char.toLower).map (fun c => if c = ' ' ∨ c = '_' then '-' else c)))).map
          (fun p => stripHyphens (dropLeadingDigitsHyphens p))).map
          (fun p => stripHyphens (dropLeadingDigitsHyphens p))
      = (splitOnSlash (collapseHyphens
        ((s.map Char.toLower).map (fun c => if c = ' ' ∨ c = '_' then '-' else c)))).map
          (fun p => stripHyphens (dropLeadingDigitsHyphens p)) := by
    apply map_eq_self_of
    intro q hq
    obtain ⟨r, -, rfl⟩ := List.mem_map.mp hq
    exact normComp_idem r
  show joinSlash ((splitOnSlash (collapseHyphens
      (((sanitizeSpecSteps s).map Char.toLower).map
        (fun c => if c = ' ' ∨ c = '_' then '-' else c)))).map
      (fun p => stripHyphens (dropLeadingDigitsHyphens p))) = sanitizeSpecSteps s
  rw [h1, h2, h3, splitOnSlash_sanitizeSteps s, h5]
  rfl

/-! ### Slash-count preservation -/

/-- On ASCII uppercase letters, `Char.toLower` adds 32 to the scalar
value. -/
theorem toNat_toLower_of_upper {c : Char} (h : 65 ≤ c.toNat ∧ c.toNat ≤ 90) :
    c.toLower.toNat = c.toNat + 32 := by
  unfold Char.toLower
  rw [if_pos h]
  exact toNat_ofNat_valid (by omega)

/-- Lowercasing neither creates nor destroys slashes. -/
theorem toLower_slash_iff (c : Char) : c.toLower = '/' ↔ c = '/' := by
  by_cases h : 65 ≤ c.toNat ∧ c.toNat ≤ 90
  · constructor
    · intro e
      have he := congrArg Char.toNat e
      rw [toNat_toLower_of_upper h] at he
      have : ('/' : Char).toNat = 47 := rfl
      omega
    · intro e
      subst e
      simp at h
  · rw [toLower_eq_of_not_upper h]

/-- The space/underscore replacement neither creates nor destroys
slashes. -/
theorem replUnderscoreSpace_slash_iff (c : Char) :
    (if c = ' ' ∨ c = '_' then '-' else c) = '/' ↔ c = '/' := by
  by_cases h : c = ' ' ∨ c = '_'
  · rw [if_pos h]
    constructor
    · intro e
      exact absurd e (by decide)
    · intro e
      subst e
      rcases h with h | h <;> exact absurd h (by decide)
  · rw [if_neg h]

/-- A per-character map that neither creates nor destroys a character
preserves its count. -/
theorem count_slash_map {f : Char → Char} (hf : ∀ c, f c = '/' ↔ c = '/') :
    ∀ s : List Char, (s.map f).count '/' = s.count '/' := by
  intro s
  induction s with
  | nil => rfl
  | cons c t ih =>
    simp only [List.map_cons, List.count_cons, ih]
    by_cases h : c = '/'
    · subst h
      simp [(hf '/').mpr rfl]
    · have h2 : ¬ f c = '/' := fun e => h ((hf c).mp e)
      simp [h, h2]

/-- The six-step algorithm preserves the number of slashes. -/
theorem count_slash_sanitizeSteps (s : List Char) :
    (sanitizeSpecSteps s).count '/' = s.count '/' := by
  have hne : (splitOnSlash (collapseHyphens
      ((s.map Char.toLower).map (fun c => if c = ' ' ∨ c = '_' then '-' else c)))).map
        (fun p => stripHyphens (dropLeadingDigitsHyphens p)) ≠ [] :=
    fun h => splitOnSlash_ne_nil _ (List.map_eq_nil_iff.mp h)
  have h1 := count_slash_joinSlash _ hne (map_normComp_no_slash _)
  rw [List.length_map, splitOnSlash_length] at h1
  have h3 : (collapseHyphens
      ((s.map Char.toLower).map (fun c => if c = ' ' ∨ c = '_' then '-' else c))).count '/'
      = s.count '/' := by
    rw [count_slash_collapseHyphens,
      count_slash_map replUnderscoreSpace_slash_iff,
      count_slash_map toLower_slash_iff]
  unfold sanitizeSpecSteps
  omega

/-- The six-step algorithm preserves the number of `/`-separated
components. -/
theorem splitOnSlash_length_sanitizeSteps (s : List Char) :
    (splitOnSlash (sanitizeSpecSteps s)).length = (splitOnSlash s).length := by
  rw [splitOnSlash_length, splitOnSlash_length, count_slash_sanitizeSteps]

/-! ### Claim theorems about the sanitizer -/

/-- ASCII uppercase test. -/
def isAsciiUpper (c : Char) : Bool :=
  65 ≤ c.toNat && c.toNat ≤ 90

/-- A character fixed by `Char.toLower` is not ASCII uppercase. -/
theorem isAsciiUpper_eq_false_of_toLower_fix {c : Char} (h : c.toLower = c) :
    isAsciiUpper c = false := by
  have h2 := toNat_toLower_not_upper c
  rw [h] at h2
  cases hb : isAsciiUpper c
  · rfl
  · exfalso
    apply h2
    simpa [isAsciiUpper] using hb

/-- A component in canonical form: empty, or starting with a character
that is neither a digit nor a hyphen and not ending with a hyphen. -/
def componentCanonical (p : List Char) : Bool :=
  (match p.head? with
   | none => true
   | some c => !(isDigitOrHyphen c)) &&
  (match p.getLast? with
   | none => true
   | some c => !(c == '-'))

/-- C1: `sanitize_for_myst_url` coincides with the spec's six-step
reference algorithm (lowercase; spaces and underscores to hyphens;
collapse hyphen runs; per component strip the leading digit/hyphen run;
per component strip leading and trailing hyphens; rejoin) on every input,
and maps the seven literal examples of the spec exactly. -/
theorem sanitize_for_myst_url_eq_reference_algorithm :
    (∀ s : List Char, sanitize_for_myst_url s = sanitizeSpecSteps s) ∧
    sanitizeStr ("Test With Spaces") = ("test-with-spaces") ∧
    sanitizeStr ("TestMixedCase") = ("testmixedcase") ∧
    sanitizeStr ("test_with_underscores") = ("test-with-underscores") ∧
    sanitizeStr ("_LeadingUnderscore") = ("leadingunderscore") ∧
    sanitizeStr ("Multiple___Special") = ("multiple-special") ∧
    sanitizeStr ("charters/MediaStrategyCharter") = ("charters/mediastrategycharter") ∧
    sanitizeStr ("content/01-demand/01-demand") = ("content/demand/demand") :=
  ⟨sanitize_eq_steps, by decide, by decide, by decide, by decide, by decide,
    by decide, by decide⟩

/-- C2: the sanitizer is idempotent - sanitizing an already-sanitized
string returns it unchanged. -/
theorem sanitize_for_myst_url_idempotent (s : List Char) :
    sanitize_for_myst_url (sanitize_for_myst_url s) = sanitize_for_myst_url s := by
  rw [sanitize_eq_steps s, sanitize_eq_steps (sanitizeSpecSteps s)]
  exact sanitizeSteps_idem s

/-- C3: every output of the sanitizer is entirely lowercase (no ASCII
uppercase letter), contains no underscore, no space and no run of two or
more hyphens, and has exactly as many `/`-separated components as the
input; the empty input yields the empty output. -/
theorem sanitize_for_myst_url_output_invariants : ∀ s : List Char,
    ((sanitize_for_myst_url s).all
      (fun c => !(isAsciiUpper c) && !(c == ' ') && !(c == '_'))) = true ∧
    noDoubleHyphen (sanitize_for_myst_url s) = true ∧
    (splitOnSlash (sanitize_for_myst_url s)).length = (splitOnSlash s).length ∧
    sanitize_for_myst_url [] = [] := by
  intro s
  refine ⟨?_, ?_, ?_, by decide⟩
  · rw [sanitize_eq_steps, List.all_eq_true]
    intro c hc
    obtain ⟨h1, h2, h3⟩ := sanitize_chars s c hc
    simp [isAsciiUpper_eq_false_of_toLower_fix h1, h2, h3]
  · rw [sanitize_eq_steps]
    exact noDoubleHyphen_sanitizeSteps s
  · rw [sanitize_eq_steps]
    exact splitOnSlash_length_sanitizeSteps s

/-- C10: every `/`-component of a sanitized output is either empty or
begins with a character that is neither a digit nor a hyphen and does not
end with a hyphen - the canonical form that makes re-sanitization a fixed
point. -/
theorem sanitize_for_myst_url_components_canonical (s : List Char) :
    ((splitOnSlash (sanitize_for_myst_url s)).all componentCanonical) = true := by
  rw [sanitize_eq_steps, List.all_eq_true]
  intro p hp
  rw [splitOnSlash_sanitizeSteps] at hp
  obtain ⟨q, -, rfl⟩ := List.mem_map.mp hp
  unfold componentCanonical
  rw [Bool.and_eq_true]
  refine ⟨?_, ?_⟩
  · cases hh : (stripHyphens (dropLeadingDigitsHyphens q)).head? with
    | none => rfl
    | some c => simp [head?_normComp hh]
  · cases hh : (stripHyphens (dropLeadingDigitsHyphens q)).getLast? with
    | none => rfl
    | some c => simp [getLast?_stripHyphens hh]

/-! ### Embedding of the redirect generator (generate_redirects.py,
lines 98-127 and 179-219) -/

/-- Extensionless form of a path exactly as the code computes it:
`file_path.replace('.md', '').replace('.ipynb', '')` - a literal
substring substitution, not an extension strip. -/
def stripContentExt (fp : List Char) : List Char :=
  pyReplace (pyReplace fp (".md".toList) []) (".ipynb".toList) []

/-- Old URL of a path exactly as the code computes it:
`file_path.replace('.md', '.html').replace('.ipynb', '.html')`. -/
def oldSlugOf (fp : List Char) : List Char :=
  pyReplace (pyReplace fp (".md".toList) (".html".toList)) (".ipynb".toList) (".html".toList)

/-- Model of `if not base_url.endswith('/'): base_url += '/'`. -/
def normalizeBaseUrl (b : List Char) : List Char :=
  if b.getLast? = some '/' then b else b ++ ['/']

/-- One generated redirect: the relative path of the written file
(`old_slug`) and the destination URL written into it (`new_url`). -/
structure Redirect where
  old : List Char
  url : List Char
deriving DecidableEq

/-- Embedding of `generate_redirects` (lines 179-219), with the I/O
abstracted away: the TOC file paths are passed directly and the writes are
returned as a list of `Redirect` rows.  Returns the rows together with the
count the function returns (`count` is incremented once per written
file). -/
def generate_redirects (base_url : List Char) (file_paths : List (List Char)) :
    List Redirect × Nat :=
  match file_paths with
  | [] => ([], 0)
  | fp0 :: _ =>
    let rows := file_paths.map (fun fp =>
      { old := oldSlugOf fp,
        url :=
          if sanitize_for_myst_url (stripContentExt fp) =
              sanitize_for_myst_url (stripContentExt fp0) then
            normalizeBaseUrl base_url
          else
            normalizeBaseUrl base_url ++ sanitize_for_myst_url (stripContentExt fp) ++ ['/'] })
    (rows, rows.length)

/-- Embedding of the HTML document written by `create_redirect_html`
(lines 114-125): the f-string template with `new_url` spliced in at its
three interpolation sites. -/
def create_redirect_html_content (new_url : List Char) : List Char :=
  ("<!DOCTYPE html>\n<html>\n<head>\n    <meta http-equiv=\"refresh\" content=\"0; url=").toList
  ++ new_url
  ++ ("\">\n    <meta charset=\"utf-8\">\n    <title>Redirecting...</title>\n</head>\n<body>\n    <p>This page has moved. Redirecting to <a href=\"").toList
  ++ new_url
  ++ ("\">").toList
  ++ new_url
  ++ ("</a></p>\n</body>\n</html>\n").toList

/-- Number of (possibly overlapping) occurrences of `pat` in a list. -/
def countOccurrences (pat : List Char) : List Char → Nat
  | [] => 0
  | c :: rest => (if pat.isPrefixOf (c :: rest) then 1 else 0) + countOccurrences pat rest

/-! ### Embedding of the TOC loader (lines 28-43 and 130-152) -/

/-- A table-of-contents entry as consumed by `flatten_toc`: an optional
`file` field and an optional `children` field holding nested entries. -/
inductive TocEntry where
  | mk (file : Option (List Char)) (children : Option (List TocEntry))

/-- Embedding of `flatten_toc` (lines 28-43): walk the entries in order,
appending each entry's own `file` (when present) and then the recursive
flattening of its `children` (when present). -/
def flatten_toc : List TocEntry → List (List Char)
  | [] => []
  | TocEntry.mk f cs :: rest =>
    (match f with
     | some fp => [fp]
     | none => []) ++
    (match cs with
     | some ch => flatten_toc ch
     | none => []) ++
    flatten_toc rest

mutual
/-- Files contributed by a single entry, written the way the spec words
the traversal: the entry's own `file` first, then the files of its
children. -/
def entryFilesSpec : TocEntry → List (List Char)
  | TocEntry.mk f cs =>
    (match f with
     | some fp => [fp]
     | none => []) ++
    (match cs with
     | some ch => entriesFilesSpec ch
     | none => [])

/-- Files contributed by a sequence of sibling entries, in declaration
order. -/
def entriesFilesSpec : List TocEntry → List (List Char)
  | [] => []
  | e :: rest => entryFilesSpec e ++ entriesFilesSpec rest
end

/-- Errors of `load_myst_toc`: `FileNotFoundError` when the config path
does not exist, `KeyError` when the parsed document lacks
`project.toc`. -/
inductive LoadError where
  | fileNotFound
  | keyError
deriving DecidableEq

/-- The `project` section of a parsed config: its `toc` field may be
absent. -/
structure MystProject where
  toc : Option (List TocEntry)

/-- A parsed config document: its `project` section may be absent. -/
structure MystConfig where
  project : Option MystProject

/-- Embedding of `load_myst_toc` (lines 130-152) over an abstract
filesystem: the argument is `none` when the config path does not exist,
and `some cfg` when it exists and parses to `cfg`.  Mirrors the code:
missing file raises `FileNotFoundError`; a parsed document without
`project` or without `project.toc` raises `KeyError`; otherwise the
flattened TOC is returned. -/
def load_myst_toc : Option MystConfig → Except LoadError (List (List Char))
  | none => Except.error LoadError.fileNotFound
  | some cfg =>
    match cfg.project with
    | none => Except.error LoadError.keyError
    | some proj =>
      match proj.toc with
      | none => Except.error LoadError.keyError
      | some toc => Except.ok (flatten_toc toc)

/-! ### Helper lemmas for the loader -/

/-- `flatten_toc` agrees with the mutually recursive per-entry
collection. -/
theorem flatten_toc_eq_entries : ∀ ts : List TocEntry,
    flatten_toc ts = entriesFilesSpec ts
  | [] => by simp [flatten_toc, entriesFilesSpec]
  | TocEntry.mk f cs :: rest => by
    have hrest := flatten_toc_eq_entries rest
    cases f with
    | none =>
      cases cs with
      | none => simp [flatten_toc, entriesFilesSpec, entryFilesSpec, hrest]
      | some ch =>
        have hch := flatten_toc_eq_entries ch
        simp [flatten_toc, entriesFilesSpec, entryFilesSpec, hrest, hch]
    | some fp =>
      cases cs with
      | none => simp [flatten_toc, entriesFilesSpec, entryFilesSpec, hrest]
      | some ch =>
        have hch := flatten_toc_eq_entries ch
        simp [flatten_toc, entriesFilesSpec, entryFilesSpec, hrest, hch]

/-- Collecting over siblings is flattening the per-entry collections. -/
theorem entriesFilesSpec_eq_flatten : ∀ ts : List TocEntry,
    entriesFilesSpec ts = (ts.map entryFilesSpec).flatten
  | [] => rfl
  | e :: rest => by
    simp only [entriesFilesSpec, List.map_cons, List.flatten_cons]
    rw [entriesFilesSpec_eq_flatten rest]

/-- Whether a parsed document lacks the required `project.toc` shape. -/
def configLacksToc : Option MystConfig → Bool
  | none => false
  | some cfg =>
    match cfg.project with
    | none => true
    | some proj => proj.toc.isNone

/-! ### Claim theorems about the generator, emitter and loader -/

/-- C4: the base URL is normalized to end with `/`; the sanitized slug of
`file_paths[0]` serves as `index_slug`; and each path's new URL is exactly
the normalized base URL when its sanitized extensionless slug equals
`index_slug`, and otherwise the normalized base URL followed by the slug
and a trailing `/`. -/
theorem generate_redirects_url_mapping (base fp0 : List Char)
    (rest : List (List Char)) :
    (normalizeBaseUrl base).getLast? = some '/' ∧
    (generate_redirects base (fp0 :: rest)).1 =
      (fp0 :: rest).map (fun fp =>
        { old := oldSlugOf fp,
          url :=
            if sanitize_for_myst_url (stripContentExt fp) =
                sanitize_for_myst_url (stripContentExt fp0) then
              normalizeBaseUrl base
            else
              normalizeBaseUrl base ++ sanitize_for_myst_url (stripContentExt fp) ++ ['/'] }) := by
  refine ⟨?_, rfl⟩
  unfold normalizeBaseUrl
  by_cases h : base.getLast? = some '/'
  · rw [if_pos h]
    exact h
  · rw [if_neg h]
    exact List.getLast?_concat base

/-- C5: the old URL of every entry is the file path with `.md` and
`.ipynb` replaced by `.html` through literal substring substitution, so a
path containing `.md` as an interior substring is also affected. -/
theorem generate_redirects_old_url_literal_substitution :
    (∀ (base fp0 : List Char) (rest : List (List Char)),
      ((generate_redirects base (fp0 :: rest)).1.map Redirect.old) =
        (fp0 :: rest).map oldSlugOf) ∧
    oldSlugOf ("content/my.md-notes.md".toList) = ("content/my.html-notes.html".toList) ∧
    oldSlugOf ("overview.md".toList) = ("overview.html".toList) ∧
    oldSlugOf ("notebooks/demo.ipynb".toList) = ("notebooks/demo.html".toList) := by
  refine ⟨?_, by decide, by decide, by decide⟩
  intro base fp0 rest
  simp only [generate_redirects, List.map_map]
  rfl

/-- C8: the returned count always equals the length of the file path
list (duplicates included), and the empty list yields the count `0` with
no redirect rows. -/
theorem generate_redirects_count (base : List Char) (fps : List (List Char)) :
    (generate_redirects base fps).2 = fps.length ∧
    ((generate_redirects base fps).1).length = fps.length ∧
    generate_redirects base [] = ([], 0) := by
  refine ⟨?_, ?_, rfl⟩ <;> cases fps with
  | nil => rfl
  | cons fp0 rest => simp [generate_redirects]

set_option maxRecDepth 8000 in
/-- C9 counterexample: for a destination URL that does not occur in the
fixed template text, the written content contains the URL three times -
refresh target, link `href`, and link text -, not twice as claimed. -/
theorem create_redirect_html_url_occurs_three_times_not_two :
    countOccurrences ("https://zqxw.example/".toList)
      (create_redirect_html_content ("https://zqxw.example/".toList)) = 3 ∧
    ¬ countOccurrences ("https://zqxw.example/".toList)
      (create_redirect_html_content ("https://zqxw.example/".toList)) = 2 :=
  ⟨by decide, by decide⟩

set_option maxRecDepth 8000 in
/-- C9 amended: the content is the fixed meta-refresh template with the
destination URL interpolated exactly three times - once as the refresh
target, once as the link `href` attribute, and once as the visible link
text. -/
theorem create_redirect_html_template_three_sites :
    (∀ u : List Char, create_redirect_html_content u =
      ("<!DOCTYPE html>\n<html>\n<head>\n    <meta http-equiv=\"refresh\" content=\"0; url=").toList
      ++ u
      ++ ("\">\n    <meta charset=\"utf-8\">\n    <title>Redirecting...</title>\n</head>\n<body>\n    <p>This page has moved. Redirecting to <a href=\"").toList
      ++ u
      ++ ("\">").toList
      ++ u
      ++ ("</a></p>\n</body>\n</html>\n").toList) ∧
    countOccurrences ("https://example.com/demand/".toList)
      (create_redirect_html_content ("https://example.com/demand/".toList)) = 3 :=
  ⟨fun _ => rfl, by decide⟩

/-- C6: `flatten_toc` is the depth-first, parent-before-children
flattening: it equals the flattening of the per-entry pre-order
collections, and an entry's own `file` is emitted before the files of its
`children`, which precede the files of its later siblings. -/
theorem flatten_toc_preorder :
    (∀ ts : List TocEntry, flatten_toc ts = (ts.map entryFilesSpec).flatten) ∧
    (∀ (fp : List Char) (ch rest : List TocEntry),
      flatten_toc (TocEntry.mk (some fp) (some ch) :: rest) =
        fp :: (flatten_toc ch ++ flatten_toc rest)) := by
  constructor
  · intro ts
    rw [flatten_toc_eq_entries, entriesFilesSpec_eq_flatten]
  · intro fp ch rest
    simp [flatten_toc]

/-- C7: the loader fails with the not-found error exactly when the config
path does not exist, fails with the structure error exactly when the
parsed document lacks the `project.toc` shape, and otherwise returns the
complete flattened TOC - never a partial result. -/
theorem load_myst_toc_errors (x : Option MystConfig) :
    (load_myst_toc x = Except.error LoadError.fileNotFound ↔ x = none) ∧
    (load_myst_toc x = Except.error LoadError.keyError ↔ configLacksToc x = true) ∧
    ((∃ e, load_myst_toc x = Except.error e) ∨
      ∃ cfg proj toc, x = some cfg ∧ cfg.project = some proj ∧ proj.toc = some toc ∧
        load_myst_toc x = Except.ok (flatten_toc toc)) := by
  match x with
  | none =>
    refine ⟨by simp [load_myst_toc], by simp [load_myst_toc, configLacksToc], ?_⟩
    exact Or.inl ⟨LoadError.fileNotFound, rfl⟩
  | some ⟨none⟩ =>
    refine ⟨by simp [load_myst_toc], by simp [load_myst_toc, configLacksToc], ?_⟩
    exact Or.inl ⟨LoadError.keyError, rfl⟩
  | some ⟨some ⟨none⟩⟩ =>
    refine ⟨by simp [load_myst_toc], by simp [load_myst_toc, configLacksToc], ?_⟩
    exact Or.inl ⟨LoadError.keyError, rfl⟩
  | some ⟨some ⟨some toc⟩⟩ =>
    refine ⟨by simp [load_myst_toc], by simp [load_myst_toc, configLacksToc], ?_⟩
    exact Or.inr ⟨⟨some ⟨some toc⟩⟩, ⟨some toc⟩, toc, rfl, rfl, rfl, rfl⟩
